import Mathlib

/-!
Verification of the voice-calculator transcript/numeral pipeline.

The development shallowly embeds the `VoiceCalculator` class of the
repository (the file with `parseNumber`, `processSpeechInput`,
`deleteLastEntry`, the `onresult` / `onerror` / `onend` speech callbacks and
their timers).  JavaScript numbers produced by this program are always
non-negative exact decimals (integer numeral values, or `parseFloat` of a
digit-and-dot run) combined only with `+` and `*`, so they are modelled
exactly by the type `JsNum` below (`num / 10 ^ exp`); the JavaScript `NaN`
is modelled by `none` in `Option JsNum`.  Strings are modelled as `List
Char`.
-/

/-- Exact non-negative decimal `num / 10 ^ exp`, the value space of the
JavaScript numbers this program manipulates.  This is deliberately an
exact (unbounded) model: a real JavaScript engine stores the nearest
IEEE-754 binary64 instead, which agrees with the exact value only on
representable values (see `isDoubleValue` below).  Statements whose truth
depends on that distinction are stated with an explicit representability
bound. -/
structure JsNum where
  num : Nat
  exp : Nat
deriving DecidableEq

/-- Embed a natural number, as the integer literals of the source. -/
def JsNum.ofNat (n : Nat) : JsNum := ⟨n, 0⟩

/-- Addition of decimals (common-denominator form; exact). -/
def JsNum.add (a b : JsNum) : JsNum :=
  ⟨a.num * 10 ^ (max a.exp b.exp - a.exp) + b.num * 10 ^ (max a.exp b.exp - b.exp),
   max a.exp b.exp⟩

/-- Multiplication of decimals (exact). -/
def JsNum.mul (a b : JsNum) : JsNum := ⟨a.num * b.num, a.exp + b.exp⟩

/-- Value-level test against `0`, the JavaScript `x === 0` on numbers
(`num / 10 ^ exp = 0` iff `num = 0`). -/
def JsNum.isZero (a : JsNum) : Bool := a.num = 0

/-- Value-level strict order, the JavaScript `<` on numbers
(cross-multiplied). -/
def JsNum.ltB (a b : JsNum) : Bool := a.num * 10 ^ b.exp < b.num * 10 ^ a.exp

/-- Value-level order, the JavaScript `<=` on numbers (cross-multiplied). -/
def JsNum.leB (a b : JsNum) : Bool := a.num * 10 ^ b.exp ≤ b.num * 10 ^ a.exp

/-- The rational value denoted by a `JsNum`. -/
def JsNum.toRat (a : JsNum) : ℚ := (a.num : ℚ) / 10 ^ a.exp

/-- The integer denoted by an integral `JsNum` (used where the source
passes a number to `Array(qty)`, which requires an integer). -/
def JsNum.toCount (a : JsNum) : Nat := a.num / 10 ^ a.exp

/-- Lifted addition on `Option JsNum`; `none` is JavaScript `NaN`, which is
absorbing for arithmetic. -/
def nAdd : Option JsNum → Option JsNum → Option JsNum
  | some a, some b => some (a.add b)
  | _, _ => none

/-- Lifted multiplication on `Option JsNum` (`none` = `NaN`, absorbing). -/
def nMul : Option JsNum → Option JsNum → Option JsNum
  | some a, some b => some (a.mul b)
  | _, _ => none

/-- JavaScript `x === 0` where `x` may be `NaN` (`NaN === 0` is false). -/
def nIsZero : Option JsNum → Bool
  | some a => a.isZero
  | none => false

/-- The character class of the regex `[0-9]` used throughout the source. -/
def isArabicDigit (c : Char) : Bool :=
  c = '0' || c = '1' || c = '2' || c = '3' || c = '4' ||
  c = '5' || c = '6' || c = '7' || c = '8' || c = '9'

/-- The character class of the regex `[零一二兩三四五六七八九十百千萬]`
tested by `parseNumber` before taking its Arabic fast path. -/
def isChineseNumeral (c : Char) : Bool :=
  c = '零' || c = '一' || c = '二' || c = '兩' || c = '三' ||
  c = '四' || c = '五' || c = '六' || c = '七' || c = '八' ||
  c = '九' || c = '十' || c = '百' || c = '千' || c = '萬'

/-- The numeral map of `parseNumber`
(`{'零':0, …, '十':10, '百':100, '千':1000, '萬':10000}`). -/
def charMap : Char → Option Nat
  | '零' => some 0
  | '一' => some 1
  | '二' => some 2
  | '兩' => some 2
  | '三' => some 3
  | '四' => some 4
  | '五' => some 5
  | '六' => some 6
  | '七' => some 7
  | '八' => some 8
  | '九' => some 9
  | '十' => some 10
  | '百' => some 100
  | '千' => some 1000
  | '萬' => some 10000
  | _ => none

/-- Numeric value of a run of decimal digits (most significant first). -/
def digitsToNat (l : List Char) : Nat :=
  l.foldl (fun a c => 10 * a + (c.toNat - '0'.toNat)) 0

/-- JavaScript `parseFloat`, restricted to the strings this program feeds
it: no leading whitespace or sign, no exponent part, never `Infinity`
spelled out.  It reads the longest prefix of the form
`digits ['.' digits]` and is `NaN` (`none`) when that prefix holds no
digit.  The returned value is the exact mathematical value of that
prefix; the engine instead stores the nearest binary64, so this model
over-approximates the engine's precision — the two agree exactly when the
prefix value satisfies `isDoubleValue`, and theorems about concrete
parsed values are pinned below that bound. -/
def jsParseFloat (l : List Char) : Option JsNum :=
  let intDigits := l.takeWhile isArabicDigit
  let rest := l.dropWhile isArabicDigit
  if rest.head? = some '.' then
    let fracDigits := rest.tail.takeWhile isArabicDigit
    if intDigits.isEmpty && fracDigits.isEmpty then none
    else some ⟨digitsToNat (intDigits ++ fracDigits), fracDigits.length⟩
  else if intDigits.isEmpty then none
  else some ⟨digitsToNat intDigits, 0⟩

/-- State of `parseNumber`'s scan loop: the accumulated total `val`, the
current positional group `bucket`, and the pending literal-digit run
`currentDigitStr`. -/
structure ScanState where
  val : Option JsNum
  bucket : Option JsNum
  run : List Char
deriving DecidableEq

/-- The body `if (currentDigitStr) { bucket = parseFloat(currentDigitStr);
currentDigitStr = ''; }` of `parseNumber`. -/
def flushRun (st : ScanState) : ScanState :=
  if st.run.isEmpty then st
  else { st with bucket := jsParseFloat st.run, run := [] }

/-- One iteration of `parseNumber`'s character loop. -/
def scanStep (st : ScanState) (c : Char) : ScanState :=
  if isArabicDigit c || c = '.' then
    { st with run := st.run ++ [c] }
  else
    let st := flushRun st
    match charMap c with
    | none => st
    | some num =>
      if 10 ≤ num then
        let st :=
          if nIsZero st.bucket && c = '十' then
            { st with bucket := some (JsNum.ofNat 1) }
          else st
        if num = 10000 then
          { st with val := nMul (nAdd st.val st.bucket) (some (JsNum.ofNat 10000)),
                    bucket := some (JsNum.ofNat 0) }
        else
          { st with val := nAdd st.val (nMul st.bucket (some (JsNum.ofNat num))),
                    bucket := some (JsNum.ofNat 0) }
      else
        { st with bucket := some (JsNum.ofNat num) }

/-- The value computed by `parseNumber`'s scan: run the loop from
`val = 0, bucket = 0, currentDigitStr = ''`, flush a trailing digit run,
and add the final bucket into the total. -/
def scanValue (s : List Char) : Option JsNum :=
  let fin := s.foldl scanStep ⟨some (JsNum.ofNat 0), some (JsNum.ofNat 0), []⟩
  let lastBucket := if fin.run.isEmpty then fin.bucket else jsParseFloat fin.run
  nAdd fin.val lastBucket

/-- The source's `parseNumber` (the spec's `NumeralParser.parse`): Arabic
fast path when `parseFloat` succeeds and no Chinese numeral character is
present, otherwise the scan, with a computed value of `0` turned into
`NaN` (`none`). -/
def parseNumber (s : List Char) : Option JsNum :=
  let floatCheck := jsParseFloat s
  if floatCheck.isSome && !(s.any isChineseNumeral) then floatCheck
  else
    let v := scanValue s
    if nIsZero v then none else v

/-- The character class of the token alphabet: the split in
`processSpeechInput` is on `[^0-9零一二兩三四五六七八九十百千萬\.、]+`, so a
token character is a digit, a Chinese numeral, a dot, or the list
separator `、`. -/
def isTokenChar (c : Char) : Bool :=
  isArabicDigit c || isChineseNumeral c || c = '.' || c = '、'

/-- JavaScript `\s`, restricted to the ASCII whitespace the transcript
stream can carry (further Unicode space characters never matter to the
claims). -/
def isJsWs (c : Char) : Bool :=
  c = ' ' || c = '\t' || c = '\n' || c = '\r' || c = '\x0b' || c = '\x0c'

/-- Fuel-indexed splitter: emit each maximal run of token characters.
This is `cleanText.split(/[^0-9零一二兩三四五六七八九十百千萬\.、]+/)` with
the empty pieces already discarded — the source's per-token loop starts
with `if (!token) return;`, so only the non-empty runs are processed. -/
def tokenizeGo : Nat → List Char → List (List Char)
  | 0, _ => []
  | _ + 1, [] => []
  | fuel + 1, c :: cs =>
    if isTokenChar c then
      (c :: cs.takeWhile isTokenChar) :: tokenizeGo fuel (cs.dropWhile isTokenChar)
    else tokenizeGo fuel cs

/-- The spec's `Tokenizer.tokenize` (the `split` in `processSpeechInput`,
with empty tokens dropped). -/
def tokenize (l : List Char) : List (List Char) := tokenizeGo l.length l

/-- The character class `[0-9零一二兩三四五六七八九十]` of the quantity
group of the multiplier regex. -/
def isQtyChar (c : Char) : Bool :=
  isArabicDigit c ||
  (c = '零' || c = '一' || c = '二' || c = '兩' || c = '三' || c = '四' ||
   c = '五' || c = '六' || c = '七' || c = '八' || c = '九' || c = '十')

/-- The character class `[0-9零一二兩三四五六七八九十百千萬]` of the amount
group of the multiplier regex. -/
def isAmtChar (c : Char) : Bool := isArabicDigit c || isChineseNumeral c

/-- Attempt to match the multiplier regex
`([0-9零一二兩三四五六七八九十]+)\s*[個个]\s*([0-9零一二兩三四五六七八九十百千萬]+)`
at the head of the list.  The character classes of the three parts are
pairwise disjoint from their delimiters, so the regex engine's backtracking
never fires and the match is the greedy one modelled here.  On success it
returns the quantity group, the amount group, the whole matched substring,
and the rest of the input after the match. -/
def matchMult (l : List Char) :
    Option (List Char × List Char × List Char × List Char) :=
  let q := l.takeWhile isQtyChar
  if q.isEmpty then none
  else
    let r1 := l.dropWhile isQtyChar
    let ws1 := r1.takeWhile isJsWs
    match r1.dropWhile isJsWs with
    | [] => none
    | g :: r3 =>
      if g = '個' || g = '个' then
        let ws2 := r3.takeWhile isJsWs
        let r4 := r3.dropWhile isJsWs
        let a := r4.takeWhile isAmtChar
        if a.isEmpty then none
        else some (q, a, q ++ ws1 ++ g :: (ws2 ++ a), r4.dropWhile isAmtChar)
      else none

/-- The replacement callback of the multiplier rewrite: parse the quantity;
when it is a value in `(0, 50]` return the amount repeated that many times
joined by single spaces (`Array(qty).fill(amountStr).join(' ')` — the
`Array` length is the integer the quantity denotes, `JsNum.toCount`);
otherwise return the matched text unchanged. -/
def multReplacement (qtyStr amountStr matched : List Char) : List Char :=
  match parseNumber qtyStr with
  | none => matched
  | some qty =>
    if JsNum.ltB (JsNum.ofNat 0) qty && JsNum.leB qty (JsNum.ofNat 50) then
      List.intercalate [' '] (List.replicate qty.toCount amountStr)
    else matched

/-- Fuel-indexed global regex replace: scan left to right, at each position
try the multiplier pattern; on a match emit the callback's replacement and
resume after the matched text, otherwise keep the character and move on —
the semantics of `String.prototype.replace` with a global regex. -/
def expandGo : Nat → List Char → List Char
  | 0, l => l
  | _ + 1, [] => []
  | fuel + 1, c :: cs =>
    match matchMult (c :: cs) with
    | some (q, a, matched, rest) => multReplacement q a matched ++ expandGo fuel rest
    | none => c :: expandGo fuel cs

/-- The spec's `MultiplierExpander.expand` (the `cleanText.replace(regex,
callback)` step of `processSpeechInput`). -/
def expandMultipliers (l : List Char) : List Char := expandGo l.length l

/-- Does `l` start with `n`? (helper for substring containment). -/
def startsWith : List Char → List Char → Bool
  | _, [] => true
  | [], _ :: _ => false
  | c :: cs, d :: ds => c = d && startsWith cs ds

/-- JavaScript `hay.includes(needle)`: substring containment. -/
def containsSub : List Char → List Char → Bool
  | [], needle => startsWith [] needle
  | c :: cs, needle => startsWith (c :: cs) needle || containsSub cs needle

/-- JavaScript `String.prototype.trim` (ASCII whitespace, see `isJsWs`). -/
def jsTrim (l : List Char) : List Char :=
  ((l.dropWhile isJsWs).reverse.dropWhile isJsWs).reverse

/-- The delete-command test of `processSpeechInput`:
`cleanText.includes('刪除') || cleanText.toLowerCase().includes('delete')`. -/
def commandDelete (clean : List Char) : Bool :=
  containsSub clean ['刪', '除'] ||
    containsSub (clean.map Char.toLower) ['d', 'e', 'l', 'e', 't', 'e']

/-- The summary-command test of `processSpeechInput`:
containment of any of `總共`, `多少`, `結算`, `買單`. -/
def commandSummary (clean : List Char) : Bool :=
  containsSub clean ['總', '共'] || containsSub clean ['多', '少'] ||
    containsSub clean ['結', '算'] || containsSub clean ['買', '單']

/-- The ledger is the `entries` array; only the `value` field matters to
the claims (ids and timestamps are opaque). -/
def appendEntry (entries : List JsNum) (v : JsNum) : List JsNum := entries ++ [v]

/-- The source's `deleteLastEntry`: pop the last entry when one exists,
otherwise report `無資料` and leave the ledger unchanged. -/
def deleteLastEntry (entries : List JsNum) : List JsNum := entries.dropLast

/-- The source's `calculateTotal`:
`entries.reduce((sum, item) => sum + item.value, 0)`. -/
def calculateTotal (entries : List JsNum) : JsNum :=
  entries.foldl JsNum.add (JsNum.ofNat 0)

/-- The source's `processSpeechInput`, as a function from the committed
segment text and the current ledger to the next ledger: trim, strip
commas, bail out on empty text, run the two command tests (delete-last
mutates the ledger, summary leaves it alone), then expand multipliers,
tokenize, and append one entry per token whose `parseNumber` is not
`NaN`. -/
def processSpeechInput (text : List Char) (entries : List JsNum) : List JsNum :=
  let clean := (jsTrim text).filter (fun c => c ≠ ',')
  if clean.isEmpty then entries
  else if commandDelete clean then deleteLastEntry entries
  else if commandSummary clean then entries
  else
    let expanded := expandMultipliers clean
    (tokenize expanded).foldl
      (fun es t =>
        match parseNumber t with
        | some v => appendEntry es v
        | none => es)
      entries

/-- How a committed text reached the extraction pipeline: a true-final
segment, or the 600 ms force-finalize timer. -/
inductive CommitSource
  | finalSeg
  | forced
deriving DecidableEq

/-- State of the `onresult` handler's force-finalize logic: the pending
timer (tagged with a fresh identifier so that a cleared timer is
distinguishable from a newly armed one, as `setTimeout` handles are) and
the log of texts handed to `processSpeechInput`. -/
structure AccState where
  nextId : Nat
  armed : Option (Nat × List Char)
  committed : List (CommitSource × List Char)
deriving DecidableEq

/-- Events reaching the accumulator: an `onresult` callback carrying the
concatenated final and interim transcripts, or the expiry of the timer
with handle `n` (which has an effect only if that very timer is still
armed — `clearTimeout` semantics). -/
inductive AccEvent
  | result (finalT interimT : List Char)
  | fire (n : Nat)
deriving DecidableEq

/-- One step of the `onresult` / force-finalize machinery.  `result f i`
first performs `clearTimeout(this.forceFinalizeTimer)`, then commits `f`
when non-empty, then (when `i` is non-empty) arms a fresh force-finalize
timer for `i`.  `fire n` commits the armed text if timer `n` is still the
armed one, else does nothing.  (The handler also resets the inactivity
timer and aborts the backend; those effects belong to the session model
below.) -/
def accStep (s : AccState) (e : AccEvent) : AccState :=
  match e with
  | .result f i =>
    let s1 : AccState := { s with armed := none }
    let s2 : AccState :=
      if f.isEmpty then s1
      else { s1 with committed := s1.committed ++ [(CommitSource.finalSeg, f)] }
    if i.isEmpty then s2
    else { s2 with armed := some (s2.nextId, i), nextId := s2.nextId + 1 }
  | .fire n =>
    match s.armed with
    | some (m, t) =>
      if m = n then
        { s with armed := none, committed := s.committed ++ [(CommitSource.forced, t)] }
      else s
    | none => s

/-- Externally visible effects of the session controller. -/
inductive SessAction
  | startBackend
  | stopBackend
  | alertUser
  | statusError
deriving DecidableEq

/-- Session-controller state: the intent flag `isListening`, plus the
pending restart and inactivity timers (tagged like the accumulator's). -/
structure SessState where
  isListening : Bool
  restartArmed : Option Nat
  inactArmed : Option Nat
  nextId : Nat
deriving DecidableEq

/-- Backend and timer events driving the session controller.  `resultEvt`
stands for any recognized speech activity (the `onresult` callback's
`resetInactivityTimer()` call); user button presses are deliberately not
events of this model — the claims are about what the controller does on
its own. -/
inductive SessEvent
  | errorEvt (code : String)
  | endEvt
  | restartFire (n : Nat)
  | inactFire (n : Nat)
  | resultEvt
deriving DecidableEq

/-- One transition of the session controller, returning the next state and
the emitted actions.
`errorEvt`: benign codes (`no-speech`, `aborted`, `network`) are ignored;
`not-allowed` / `service-not-allowed` clear `isListening` and alert the
user; anything else only shows an error status.
`endEvt`: when still intending to listen, re-arm the 50 ms restart timer
(clearing any prior one); otherwise nothing.
`restartFire`: a still-armed restart timer calls `recognition.start()`
only if `isListening` is still set.
`inactFire`: a still-armed inactivity timer stops listening.
`resultEvt`: `resetInactivityTimer()` — clear the inactivity timer and
re-arm it only when listening. -/
def sessStep (s : SessState) (e : SessEvent) : SessState × List SessAction :=
  match e with
  | .errorEvt code =>
    if code = "no-speech" || code = "aborted" || code = "network" then (s, [])
    else if code = "not-allowed" || code = "service-not-allowed" then
      ({ s with isListening := false }, [SessAction.alertUser])
    else (s, [SessAction.statusError])
  | .endEvt =>
    if s.isListening then
      ({ s with restartArmed := some s.nextId, nextId := s.nextId + 1 }, [])
    else (s, [])
  | .restartFire n =>
    match s.restartArmed with
    | some m =>
      if m = n then
        ({ s with restartArmed := none },
         if s.isListening then [SessAction.startBackend] else [])
      else (s, [])
    | none => (s, [])
  | .inactFire n =>
    match s.inactArmed with
    | some m =>
      if m = n then
        ({ s with inactArmed := none, isListening := false }, [SessAction.stopBackend])
      else (s, [])
    | none => (s, [])
  | .resultEvt =>
    if s.isListening then
      ({ s with inactArmed := some s.nextId, nextId := s.nextId + 1 }, [])
    else ({ s with inactArmed := none }, [])

/-- Run the session controller over a list of events, collecting all
emitted actions. -/
def sessRun : SessState → List SessEvent → SessState × List SessAction
  | s, [] => (s, [])
  | s, e :: es =>
    ((sessRun (sessStep s e).1 es).1,
     (sessStep s e).2 ++ (sessRun (sessStep s e).1 es).2)

/-- Modelled from the spec: the plain decimal value of a literal with
integer digits `I` and fraction digits `F` (spec words: a valid decimal
literal's "numeric value"). -/
def specDecimalVal (intPart fracPart : List Char) : ℚ :=
  (digitsToNat intPart : ℚ) + (digitsToNat fracPart : ℚ) / 10 ^ fracPart.length

/-- Modelled from the IEEE-754 binary64 semantics of JavaScript numbers:
the non-negative finite values a JavaScript number can hold are exactly
`m * 2 ^ k` with mantissa `m < 2 ^ 53` and exponent `-1074 ≤ k ≤ 971`.
`parseFloat` returns the binary64 nearest to the literal's mathematical
value, so a value outside this set can never be returned by the program's
parse nor stored in a ledger entry. -/
def isDoubleValue (q : ℚ) : Prop :=
  ∃ (m : ℕ) (k : ℤ), m < 2 ^ 53 ∧ -1074 ≤ k ∧ k ≤ 971 ∧ q = m * (2 : ℚ) ^ k

/-! Helper lemmas. -/

theorem tokenizeGo_nil (n : Nat) : tokenizeGo n [] = [] := by
  cases n <;> rfl

theorem startsWith_iff (l n : List Char) :
    startsWith l n = true ↔ ∃ v, l = n ++ v := by
  induction n generalizing l with
  | nil => simp [startsWith]
  | cons d ds ih =>
    cases l with
    | nil => simp [startsWith]
    | cons c cs =>
      simp only [startsWith, Bool.and_eq_true, decide_eq_true_eq, ih, List.cons_append]
      constructor
      · rintro ⟨rfl, v, rfl⟩
        exact ⟨v, rfl⟩
      · rintro ⟨v, hv⟩
        injection hv with h1 h2
        exact ⟨h1, v, h2⟩

theorem containsSub_iff (hay n : List Char) :
    containsSub hay n = true ↔ ∃ u v, hay = u ++ n ++ v := by
  induction hay with
  | nil =>
    constructor
    · intro hc
      obtain ⟨v, hv⟩ := (startsWith_iff [] n).mp hc
      exact ⟨[], v, by simpa using hv⟩
    · rintro ⟨u, v, huv⟩
      rw [List.append_assoc] at huv
      obtain ⟨hu, hnv⟩ := List.append_eq_nil.mp huv.symm
      exact (startsWith_iff [] n).mpr ⟨v, hnv.symm⟩
  | cons c cs ih =>
    simp only [containsSub, Bool.or_eq_true, startsWith_iff, ih]
    constructor
    · rintro (⟨v, hv⟩ | ⟨u, v, huv⟩)
      · exact ⟨[], v, by simpa using hv⟩
      · exact ⟨c :: u, v, by simp [huv]⟩
    · rintro ⟨u, v, huv⟩
      cases u with
      | nil => exact Or.inl ⟨v, by simpa using huv⟩
      | cons b bs =>
        injection huv with h1 h2
        exact Or.inr ⟨bs, v, h2⟩

theorem containsSub_mem {hay n : List Char} (h : containsSub hay n = true) :
    ∀ c ∈ n, c ∈ hay := by
  obtain ⟨u, v, rfl⟩ := (containsSub_iff hay n).mp h
  intro c hc
  simp [List.mem_append, hc]

theorem dropWhile_keeps_sub (p : Char → Bool) (u v n : List Char) (c : Char)
    (hc : p c = false) :
    ∃ w, (u ++ (c :: n) ++ v).dropWhile p = w ++ (c :: n) ++ v := by
  induction u with
  | nil =>
    exact ⟨[], by simp [List.dropWhile_cons, hc]⟩
  | cons a as ih =>
    by_cases ha : p a = true
    · obtain ⟨w, hw⟩ := ih
      exact ⟨w, by simpa [List.dropWhile_cons, ha] using hw⟩
    · exact ⟨a :: as, by simp [List.dropWhile_cons, ha]⟩

theorem digit_cases {c : Char} (h : isArabicDigit c = true) :
    c = '0' ∨ c = '1' ∨ c = '2' ∨ c = '3' ∨ c = '4' ∨
    c = '5' ∨ c = '6' ∨ c = '7' ∨ c = '8' ∨ c = '9' := by
  have h' := h
  simp only [isArabicDigit, Bool.or_eq_true, decide_eq_true_eq] at h'
  tauto

theorem digit_not_chinese {c : Char} (h : isArabicDigit c = true) :
    isChineseNumeral c = false := by
  rcases digit_cases h with rfl | rfl | rfl | rfl | rfl | rfl | rfl | rfl | rfl | rfl <;> decide

theorem digit_not_ws {c : Char} (h : isArabicDigit c = true) :
    isJsWs c = false := by
  rcases digit_cases h with rfl | rfl | rfl | rfl | rfl | rfl | rfl | rfl | rfl | rfl <;> decide

theorem digit_not_comma {c : Char} (h : isArabicDigit c = true) :
    (decide (c ≠ ',')) = true := by
  rcases digit_cases h with rfl | rfl | rfl | rfl | rfl | rfl | rfl | rfl | rfl | rfl <;> decide

theorem digit_toLower {c : Char} (h : isArabicDigit c = true) :
    c.toLower = c := by
  rcases digit_cases h with rfl | rfl | rfl | rfl | rfl | rfl | rfl | rfl | rfl | rfl <;> decide

theorem dropWhile_eq_self_of_none {p : Char → Bool} {l : List Char}
    (h : ∀ c ∈ l, p c = false) : l.dropWhile p = l := by
  cases l with
  | nil => rfl
  | cons c cs =>
    have := h c (by simp)
    simp [List.dropWhile_cons, this]

theorem takeWhile_eq_self_of_all {p : Char → Bool} {l : List Char}
    (h : ∀ c ∈ l, p c = true) : l.takeWhile p = l := by
  have := @List.takeWhile_append_of_pos Char p l [] h
  simpa using this

theorem dropWhile_eq_nil_of_all {p : Char → Bool} {l : List Char}
    (h : ∀ c ∈ l, p c = true) : l.dropWhile p = [] := by
  have := @List.dropWhile_append_of_pos Char p l [] h
  simpa using this

theorem jsTrim_eq_self {l : List Char} (h : ∀ c ∈ l, isJsWs c = false) :
    jsTrim l = l := by
  unfold jsTrim
  rw [dropWhile_eq_self_of_none h]
  rw [dropWhile_eq_self_of_none (by intro c hc; exact h c (by simpa using hc))]
  exact List.reverse_reverse l

theorem digitsToNat_aux (F : List Char) : ∀ a : Nat,
    F.foldl (fun x c => 10 * x + (c.toNat - '0'.toNat)) a
      = a * 10 ^ F.length + digitsToNat F := by
  induction F with
  | nil => intro a; simp [digitsToNat]
  | cons c F ih =>
    intro a
    have hd : digitsToNat (c :: F)
        = (10 * 0 + (c.toNat - '0'.toNat)) * 10 ^ F.length + digitsToNat F := by
      unfold digitsToNat
      simp only [List.foldl_cons]
      exact ih _
    simp only [List.foldl_cons, List.length_cons, hd]
    rw [ih]
    ring

theorem digitsToNat_append (I F : List Char) :
    digitsToNat (I ++ F) = digitsToNat I * 10 ^ F.length + digitsToNat F := by
  unfold digitsToNat
  rw [List.foldl_append]
  exact digitsToNat_aux F _

theorem dropWhile_eq_self_of_head {p : Char → Bool} {l : List Char}
    (h : ∀ c, l.head? = some c → p c = false) : l.dropWhile p = l := by
  cases l with
  | nil => rfl
  | cons c cs => simp [List.dropWhile_cons, h c rfl]

theorem jsParseFloat_digit_prefix (d rest : List Char)
    (hd : ∀ c ∈ d, isArabicDigit c = true) (hne : d ≠ [])
    (hr : ∀ c, rest.head? = some c → isArabicDigit c = false ∧ c ≠ '.') :
    jsParseFloat (d ++ rest) = some ⟨digitsToNat d, 0⟩ := by
  have htake : (d ++ rest).takeWhile isArabicDigit = d := by
    rw [List.takeWhile_append_of_pos hd]
    cases rest with
    | nil => simp
    | cons r rs =>
      have := (hr r rfl).1
      simp [List.takeWhile_cons, this]
  have hdrop : (d ++ rest).dropWhile isArabicDigit = rest := by
    rw [List.dropWhile_append_of_pos hd]
    exact dropWhile_eq_self_of_head (fun c hc => (hr c hc).1)
  have hdot : rest.head? ≠ some '.' := by
    intro hEq
    cases rest with
    | nil => simp at hEq
    | cons r rs =>
      have := (hr r rfl).2
      simp only [List.head?_cons, Option.some.injEq] at hEq
      exact this hEq
  have hem : d.isEmpty = false := by
    cases d with
    | nil => exact absurd rfl hne
    | cons _ _ => rfl
  unfold jsParseFloat
  simp only [htake, hdrop, if_neg hdot, hem, Bool.false_eq_true, if_false]

theorem matchMult_none_of_no_ge {l : List Char}
    (h : ∀ c ∈ l, c ≠ '個' ∧ c ≠ '个') : matchMult l = none := by
  unfold matchMult
  by_cases hq : (l.takeWhile isQtyChar).isEmpty
  · simp [hq]
  · simp only [hq, Bool.false_eq_true, if_false]
    set r1 := l.dropWhile isQtyChar with hr1
    cases hcase : r1.dropWhile isJsWs with
    | nil => simp
    | cons g r3 =>
      have hg : g ∈ l := by
        have h1 : g ∈ r1.dropWhile isJsWs := by rw [hcase]; simp
        have h2 : g ∈ r1 := (List.dropWhile_sublist isJsWs).mem h1
        exact (List.dropWhile_sublist isQtyChar).mem h2
      have := h g hg
      simp [this.1, this.2]

theorem expandGo_eq_self (fuel : Nat) : ∀ l : List Char,
    (∀ c ∈ l, c ≠ '個' ∧ c ≠ '个') → expandGo fuel l = l := by
  induction fuel with
  | zero => intro l _; rfl
  | succ n ih =>
    intro l h
    cases l with
    | nil => rfl
    | cons c cs =>
      rw [show expandGo (n + 1) (c :: cs)
          = (match matchMult (c :: cs) with
             | some (q, a, matched, rest) => multReplacement q a matched ++ expandGo n rest
             | none => c :: expandGo n cs) from rfl,
        matchMult_none_of_no_ge h]
      rw [ih cs (fun d hd => h d (by simp [hd]))]

theorem expandMultipliers_eq_self {l : List Char}
    (h : ∀ c ∈ l, c ≠ '個' ∧ c ≠ '个') : expandMultipliers l = l :=
  expandGo_eq_self l.length l h

theorem tokenize_single {l : List Char} (hne : l ≠ [])
    (h : ∀ c ∈ l, isTokenChar c = true) : tokenize l = [l] := by
  cases l with
  | nil => exact absurd rfl hne
  | cons c cs =>
    unfold tokenize tokenizeGo
    have hc : isTokenChar c = true := h c (by simp)
    have hcs : ∀ d ∈ cs, isTokenChar d = true := fun d hd => h d (by simp [hd])
    simp only [List.length_cons, hc, if_true]
    rw [takeWhile_eq_self_of_all hcs, dropWhile_eq_nil_of_all hcs, tokenizeGo_nil]

theorem jsTrim_keeps_sub (t : List Char) (c d : Char) (m u v : List Char)
    (hc : isJsWs c = false) (hd : isJsWs d = false)
    (ht : t = u ++ (c :: (m ++ [d])) ++ v) :
    ∃ u' v', jsTrim t = u' ++ (c :: (m ++ [d])) ++ v' := by
  subst ht
  obtain ⟨w, hw⟩ := dropWhile_keeps_sub isJsWs u v (m ++ [d]) c hc
  unfold jsTrim
  rw [hw]
  have hrev : (w ++ (c :: (m ++ [d])) ++ v).reverse
      = v.reverse ++ (d :: (m.reverse ++ [c])) ++ w.reverse := by
    simp [List.reverse_append]
  rw [hrev]
  obtain ⟨w2, hw2⟩ :=
    dropWhile_keeps_sub isJsWs v.reverse w.reverse (m.reverse ++ [c]) d hd
  rw [hw2]
  refine ⟨w, w2.reverse, ?_⟩
  simp [List.reverse_append]

/-! Claim theorems. -/

/-- Claim C1: evaluation of `parseNumber` (the spec's `NumeralParser.parse`)
at the five required inputs.  Four of the required values hold, but for
"一百五" the code returns 105, not the 150 the claim requires: the scan has
no trailing-elided-unit rule, so the final 五 is added as 5 instead of 50.
This theorem records the values the code actually computes. -/
theorem parseNumber_required_inputs :
    parseNumber "150".toList = some (JsNum.ofNat 150) ∧
    parseNumber "一百五".toList = some (JsNum.ofNat 105) ∧
    parseNumber "兩萬三千".toList = some (JsNum.ofNat 23000) ∧
    parseNumber "十五".toList = some (JsNum.ofNat 15) ∧
    parseNumber "兩".toList = some (JsNum.ofNat 2) := by
  refine ⟨?_, ?_, ?_, ?_, ?_⟩ <;> decide

/-- Claim C5, counterexample: the token "0" computes the value 0 yet
`parseNumber` returns it as a value (the Arabic fast path precedes the
zero-to-NaN check), and committing the segment "0" appends a zero-valued
ledger entry. -/
theorem parseNumber_zero_counterexample :
    parseNumber "0".toList = some (JsNum.ofNat 0) ∧
    processSpeechInput "0".toList [] = [JsNum.ofNat 0] := by
  exact ⟨by decide, by decide⟩

/-- Claim C5, amended: for every token that is not taken by the Arabic
fast path (no parseable leading float, or a Chinese numeral character is
present), `parseNumber` returns failure exactly when the scan's computed
value is 0 or NaN; pure decimal literals such as "0" bypass this check. -/
theorem parseNumber_scan_zero (s : List Char)
    (h : ((jsParseFloat s).isSome && !(s.any isChineseNumeral)) = false) :
    parseNumber s = none ↔ (nIsZero (scanValue s) = true ∨ scanValue s = none) := by
  unfold parseNumber
  simp only [h, Bool.false_eq_true, if_false]
  cases hv : scanValue s with
  | none => simp [nIsZero]
  | some a =>
    by_cases hz : a.isZero = true
    · simp [nIsZero, hz]
    · simp [nIsZero, hz]

/-- Witness for the amended C5 theorem at the concrete token "零"
(scan value 0, hence failure). -/
theorem parseNumber_scan_zero_witness :
    ((jsParseFloat "零".toList).isSome && !("零".toList.any isChineseNumeral)) = false ∧
    (parseNumber "零".toList = none ↔
      (nIsZero (scanValue "零".toList) = true ∨ scanValue "零".toList = none)) :=
  ⟨by decide, parseNumber_scan_zero "零".toList (by decide)⟩

/-- Claim C9: on every ledger, an `append` (the `entries.push` of the
extraction pipeline) followed by `removeLast` (the pop of
`deleteLastEntry`) restores both `count()` (the array length) and `sum()`
(`calculateTotal`) to their prior values. -/
theorem ledger_append_removeLast (es : List JsNum) (v : JsNum) :
    (deleteLastEntry (appendEntry es v)).length = es.length ∧
    calculateTotal (deleteLastEntry (appendEntry es v)) = calculateTotal es := by
  unfold deleteLastEntry appendEntry
  rw [List.dropLast_concat]
  exact ⟨rfl, rfl⟩

/-- Claim C2: when a true-final segment arrives while a forced-commit
timer is pending, the `onresult` handler's leading `clearTimeout` kills
that timer before the final text is committed: the result step commits the
final text exactly once, and the previously armed timer firing afterwards
is a no-op, so the accumulated interim text is never also extracted by
forced timeout. -/
theorem final_commit_cancels_forced_timer (s : AccState) (n : Nat)
    (t f i : List Char) (ha : s.armed = some (n, t)) (hn : n < s.nextId)
    (hf : f ≠ []) :
    (accStep s (AccEvent.result f i)).committed
      = s.committed ++ [(CommitSource.finalSeg, f)] ∧
    accStep (accStep s (AccEvent.result f i)) (AccEvent.fire n)
      = accStep s (AccEvent.result f i) := by
  have hfe : f.isEmpty = false := by
    cases f with
    | nil => exact absurd rfl hf
    | cons _ _ => rfl
  unfold accStep
  by_cases hi : i.isEmpty
  · simp [hfe, hi]
  · simp only [hfe, Bool.false_eq_true, if_false, hi]
    constructor
    · trivial
    · have : s.nextId ≠ n := by omega
      simp [this]

/-- Witness for C2: a state with timer 0 armed for the interim text "100",
receiving a final "100" with no fresh interim text. -/
theorem final_commit_cancels_forced_timer_witness :
    (accStep ⟨1, some (0, "100".toList), []⟩ (AccEvent.result "100".toList [])).committed
      = ([] : List (CommitSource × List Char)) ++ [(CommitSource.finalSeg, "100".toList)] ∧
    accStep (accStep ⟨1, some (0, "100".toList), []⟩ (AccEvent.result "100".toList []))
        (AccEvent.fire 0)
      = accStep ⟨1, some (0, "100".toList), []⟩ (AccEvent.result "100".toList []) :=
  final_commit_cancels_forced_timer ⟨1, some (0, "100".toList), []⟩ 0
    "100".toList "100".toList [] rfl (by decide) (by decide)

theorem sessStep_stopped {s : SessState} (e : SessEvent)
    (hs : s.isListening = false) :
    (sessStep s e).1.isListening = false ∧
    SessAction.startBackend ∉ (sessStep s e).2 := by
  cases e with
  | errorEvt code =>
    unfold sessStep
    by_cases h1 : (code = "no-speech" || code = "aborted" || code = "network") = true
    · simp [h1, hs]
    · by_cases h2 : (code = "not-allowed" || code = "service-not-allowed") = true
      · simp [h1, h2]
      · simp [h1, h2, hs]
  | endEvt =>
    unfold sessStep
    simp [hs]
  | restartFire n =>
    unfold sessStep
    cases harm : s.restartArmed with
    | none => simp [hs]
    | some m =>
      by_cases hm : m = n
      · simp [hm, hs]
      · simp [hm, hs]
  | inactFire n =>
    unfold sessStep
    cases harm : s.inactArmed with
    | none => simp [hs]
    | some m =>
      by_cases hm : m = n
      · simp [hm]
      · simp [hm, hs]
  | resultEvt =>
    unfold sessStep
    simp [hs]

theorem sessRun_no_start : ∀ (evts : List SessEvent) (s : SessState),
    s.isListening = false →
    (sessRun s evts).1.isListening = false ∧
    SessAction.startBackend ∉ (sessRun s evts).2 := by
  intro evts
  induction evts with
  | nil =>
    intro s hs
    exact ⟨hs, by simp [sessRun]⟩
  | cons e es ih =>
    intro s hs
    have hstep := sessStep_stopped e hs
    have hrec := ih (sessStep s e).1 hstep.1
    constructor
    · simpa [sessRun] using hrec.1
    · simp only [sessRun, List.mem_append]
      rintro (hmem | hmem)
      · exact hstep.2 hmem
      · exact hrec.2 hmem

/-- Claim C8: a permission-denial error ("not-allowed" or
"service-not-allowed") is terminal: the handler clears the listening
intent (Idle) and alerts the user, and no later backend event, timer
expiry, or speech activity ever makes the controller call
`recognition.start()` again. -/
theorem permission_error_terminal (s : SessState) (code : String)
    (evts : List SessEvent)
    (hcode : code = "not-allowed" ∨ code = "service-not-allowed") :
    (sessStep s (SessEvent.errorEvt code)).1.isListening = false ∧
    SessAction.alertUser ∈ (sessStep s (SessEvent.errorEvt code)).2 ∧
    SessAction.startBackend ∉
      (sessRun (sessStep s (SessEvent.errorEvt code)).1 evts).2 := by
  have hstep : (sessStep s (SessEvent.errorEvt code)).1.isListening = false ∧
      SessAction.alertUser ∈ (sessStep s (SessEvent.errorEvt code)).2 := by
    rcases hcode with rfl | rfl <;>
      · unfold sessStep
        simp
  exact ⟨hstep.1, hstep.2, (sessRun_no_start evts _ hstep.1).2⟩

/-- Witness for C8: concrete listening session, permission denied, then an
onend, a restart-timer expiry, and further activity. -/
theorem permission_error_terminal_witness :
    (sessStep ⟨true, none, some 0, 1⟩ (SessEvent.errorEvt "not-allowed")).1.isListening
      = false ∧
    SessAction.alertUser ∈
      (sessStep ⟨true, none, some 0, 1⟩ (SessEvent.errorEvt "not-allowed")).2 ∧
    SessAction.startBackend ∉
      (sessRun (sessStep ⟨true, none, some 0, 1⟩ (SessEvent.errorEvt "not-allowed")).1
        [SessEvent.endEvt, SessEvent.restartFire 0, SessEvent.resultEvt,
         SessEvent.inactFire 0]).2 :=
  permission_error_terminal ⟨true, none, some 0, 1⟩ "not-allowed"
    [SessEvent.endEvt, SessEvent.restartFire 0, SessEvent.resultEvt,
     SessEvent.inactFire 0] (Or.inl rfl)

/-- Claim C4: the multiplier rewrite.  Each match of the
"quantity 個/个 amount" pattern is handled by `multReplacement`: a quantity
parsing to `NaN`, to `0`, or to a value above `50` leaves the matched
phrase unexpanded, while an integer quantity in `[1, 50]` is replaced by
the amount repeated that many times joined by single spaces; concretely,
`expand("3個300")` tokenizes to exactly three tokens each parsing
to 300. -/
theorem multiplier_expansion :
    (∀ q a m, parseNumber q = none → multReplacement q a m = m) ∧
    (∀ q a m d, parseNumber q = some d →
      (d.isZero = true ∨ JsNum.ltB (JsNum.ofNat 50) d = true) →
      multReplacement q a m = m) ∧
    (∀ q a m (n : Nat), parseNumber q = some (JsNum.ofNat n) → 1 ≤ n → n ≤ 50 →
      multReplacement q a m = List.intercalate [' '] (List.replicate n a)) ∧
    (tokenize (expandMultipliers "3個300".toList)
        = ["300".toList, "300".toList, "300".toList] ∧
     parseNumber "300".toList = some (JsNum.ofNat 300)) := by
  refine ⟨?_, ?_, ?_, by decide, by decide⟩
  · intro q a m hq
    unfold multReplacement
    rw [hq]
  · intro q a m d hq hbad
    unfold multReplacement
    rw [hq]
    have hcond : (JsNum.ltB (JsNum.ofNat 0) d && JsNum.leB d (JsNum.ofNat 50)) = false := by
      rcases hbad with hz | hgt
      · have : d.num = 0 := by simpa [JsNum.isZero] using hz
        simp [JsNum.ltB, JsNum.ofNat, this]
      · have hlt : 50 * 10 ^ d.exp < d.num * 10 ^ 0 := by
          simpa [JsNum.ltB, JsNum.ofNat] using hgt
        simp [JsNum.leB, JsNum.ofNat]
        omega
    simp [hcond]
  · intro q a m n hq h1 h50
    unfold multReplacement
    rw [hq]
    have hcond : (JsNum.ltB (JsNum.ofNat 0) (JsNum.ofNat n)
        && JsNum.leB (JsNum.ofNat n) (JsNum.ofNat 50)) = true := by
      simp [JsNum.ltB, JsNum.leB, JsNum.ofNat]
      omega
    have hcount : (JsNum.ofNat n).toCount = n := by
      simp [JsNum.toCount, JsNum.ofNat]
    simp [hcond, hcount]

/-- Witness for C4 at the concrete quantities "零" (NaN), "0" (zero), "51"
(above the cap) and "3" (expanded threefold). -/
theorem multiplier_expansion_witness :
    multReplacement "零".toList "5".toList "零個5".toList = "零個5".toList ∧
    multReplacement "0".toList "5".toList "0個5".toList = "0個5".toList ∧
    multReplacement "51".toList "5".toList "51個5".toList = "51個5".toList ∧
    multReplacement "3".toList "300".toList "3個300".toList
      = List.intercalate [' '] (List.replicate 3 "300".toList) :=
  ⟨multiplier_expansion.1 _ _ _ (by decide),
   multiplier_expansion.2.1 _ _ _ (JsNum.ofNat 0) (by decide) (Or.inl (by decide)),
   multiplier_expansion.2.1 _ _ _ (JsNum.ofNat 51) (by decide) (Or.inr (by decide)),
   multiplier_expansion.2.2.1 _ _ _ 3 (by decide) (by decide) (by decide)⟩

theorem processSpeechInput_of_delete {text : List Char} (es : List JsNum)
    (hne : ((jsTrim text).filter (fun c => c ≠ ',')).isEmpty = false)
    (hcmd : commandDelete ((jsTrim text).filter (fun c => c ≠ ',')) = true) :
    processSpeechInput text es = deleteLastEntry es := by
  simp only [processSpeechInput, hne, hcmd, Bool.false_eq_true, if_false, if_true]

/-- Claim C6: committing a segment whose text contains the substring 刪除
never appends a ledger entry — even when digits are present, the command
branch runs `deleteLastEntry` and returns before any numeral extraction. -/
theorem delete_command_never_appends (text : List Char) (es : List JsNum)
    (h : containsSub text ['刪', '除'] = true) :
    processSpeechInput text es = deleteLastEntry es := by
  obtain ⟨u, v, ht⟩ := (containsSub_iff text ['刪', '除']).mp h
  obtain ⟨u', v', htrim⟩ := jsTrim_keeps_sub text '刪' '除' [] u v (by decide) (by decide)
    (by simpa using ht)
  simp only [List.nil_append] at htrim
  have h2 : List.filter (fun c => c ≠ ',') ['刪', '除'] = ['刪', '除'] := by decide
  have hclean : (jsTrim text).filter (fun c => c ≠ ',')
      = u'.filter (fun c => c ≠ ',') ++ ['刪', '除'] ++ v'.filter (fun c => c ≠ ',') := by
    rw [htrim, List.filter_append, List.filter_append, h2]
  have hne : ((jsTrim text).filter (fun c => c ≠ ',')).isEmpty = false := by
    rw [hclean]
    cases u'.filter (fun c => c ≠ ',') <;> rfl
  have hcmd : commandDelete ((jsTrim text).filter (fun c => c ≠ ',')) = true := by
    unfold commandDelete
    have : containsSub ((jsTrim text).filter (fun c => c ≠ ',')) ['刪', '除'] = true :=
      (containsSub_iff _ _).mpr ⟨_, _, hclean⟩
    rw [this]
    rfl
  exact processSpeechInput_of_delete es hne hcmd

/-- Witness for C6: the segment "刪除123" on a one-entry ledger deletes
the entry and appends nothing. -/
theorem delete_command_never_appends_witness :
    containsSub "刪除123".toList ['刪', '除'] = true ∧
    processSpeechInput "刪除123".toList [JsNum.ofNat 5]
      = deleteLastEntry [JsNum.ofNat 5] :=
  ⟨by decide,
   delete_command_never_appends "刪除123".toList [JsNum.ofNat 5] (by decide)⟩

theorem jsParseFloat_decimal (I F : List Char)
    (hI : ∀ c ∈ I, isArabicDigit c = true) (hF : ∀ c ∈ F, isArabicDigit c = true)
    (hne : I ++ F ≠ []) :
    jsParseFloat (I ++ '.' :: F) = some ⟨digitsToNat (I ++ F), F.length⟩ := by
  have hdot : isArabicDigit '.' = false := by decide
  have htake : (I ++ '.' :: F).takeWhile isArabicDigit = I := by
    rw [List.takeWhile_append_of_pos hI]
    simp [List.takeWhile_cons, hdot]
  have hdrop : (I ++ '.' :: F).dropWhile isArabicDigit = '.' :: F := by
    rw [List.dropWhile_append_of_pos hI]
    refine dropWhile_eq_self_of_head ?_
    intro c hc
    simp only [List.head?_cons, Option.some.injEq] at hc
    exact hc ▸ hdot
  have hcond : (I.isEmpty && F.isEmpty) = false := by
    cases I <;> cases F <;> simp_all
  unfold jsParseFloat
  rw [htake, hdrop]
  simp only [List.head?_cons, List.tail_cons, takeWhile_eq_self_of_all hF,
    hcond, Bool.false_eq_true, if_false, Option.some.injEq, if_true]

theorem any_chinese_false {l : List Char}
    (h : ∀ c ∈ l, isArabicDigit c = true ∨ c = '.' ∨ c = '、') :
    l.any isChineseNumeral = false := by
  simp only [List.any_eq_false]
  intro c hc
  rcases h c hc with hd | rfl | rfl
  · simp [digit_not_chinese hd]
  · decide
  · decide

theorem pow20sub1_not_double : ¬ isDoubleValue (99999999999999999999 : ℚ) := by
  rintro ⟨m, k, hm, hk1, hk2, heq⟩
  have h53 : (2 : ℕ) ^ 53 = 9007199254740992 := by norm_num
  rcases le_or_lt 0 k with hk | hk
  · lift k to ℕ using hk
    rw [zpow_natCast] at heq
    have hNat : (99999999999999999999 : ℕ) = m * 2 ^ k := by exact_mod_cast heq
    cases k with
    | zero =>
      simp at hNat
      omega
    | succ k' =>
      have h2 : 2 ∣ (99999999999999999999 : ℕ) := by
        rw [hNat, pow_succ]
        exact ⟨m * 2 ^ k', by ring⟩
      norm_num at h2
  · have hk' : k = -((-k).toNat : ℤ) := by omega
    set j : ℕ := (-k).toNat with hjdef
    have hjpos : 1 ≤ j := by omega
    rw [hk'] at heq
    have heq2 : (99999999999999999999 : ℚ) * 2 ^ j = m := by
      rw [heq, zpow_neg, zpow_natCast]
      have h2j : ((2 : ℚ) ^ j) ≠ 0 := by positivity
      field_simp
    have hNat2 : (99999999999999999999 : ℕ) * 2 ^ j = m := by exact_mod_cast heq2
    have h2j : (2 : ℕ) ^ 1 ≤ 2 ^ j := Nat.pow_le_pow_right (by norm_num) hjpos
    have hge : (99999999999999999999 : ℕ) * 2 ≤ m := by
      rw [← hNat2]
      exact Nat.mul_le_mul_left _ (by simpa using h2j)
    omega

/-- Claim C3, counterexample: the 20-nines token is a valid decimal
literal whose plain decimal value is 10^20 − 1, and that value is not a
binary64 value at all.  The program's `parseFloat` returns a binary64
(concretely 1e20), so its parse cannot return the plain decimal value of
this token, refuting the universal claim. -/
theorem decimal_literal_exact_counterexample :
    (∀ c ∈ List.replicate 20 '9', isArabicDigit c = true) ∧
    specDecimalVal (List.replicate 20 '9') [] = (99999999999999999999 : ℚ) ∧
    ¬ isDoubleValue (99999999999999999999 : ℚ) := by
  refine ⟨by decide, ?_, pow20sub1_not_double⟩
  have h : digitsToNat (List.replicate 20 '9') = 99999999999999999999 := by decide
  have h0 : digitsToNat ([] : List Char) = 0 := rfl
  rw [specDecimalVal, h, h0]
  norm_num

/-- Claim C3, amended: a valid decimal literal (digits, optional single
dot, at least one digit, no Chinese numeral) parses to exactly its plain
decimal value whenever that value is representable in binary64 — the
range on which the engine's `parseFloat` coincides with the exact value;
in particular this holds for every integer literal below 2^53, whose
value is always representable.  (Outside that range the program returns
the nearest binary64 instead, and Infinity near 309 digits.)  The two
conjuncts cover the dotted form `I ++ "." ++ F` and the pure-integer
form `I`. -/
theorem parse_decimal_literal (I F : List Char)
    (hI : ∀ c ∈ I, isArabicDigit c = true) (hF : ∀ c ∈ F, isArabicDigit c = true) :
    (I ++ F ≠ [] → isDoubleValue (specDecimalVal I F) →
      ∃ d, parseNumber (I ++ '.' :: F) = some d ∧ d.toRat = specDecimalVal I F) ∧
    (I ≠ [] → digitsToNat I < 2 ^ 53 →
      ∃ d, parseNumber I = some d ∧ d.toRat = specDecimalVal I [] ∧
        isDoubleValue (specDecimalVal I [])) := by
  constructor
  · intro hne hrepr
    have hjs := jsParseFloat_decimal I F hI hF hne
    have hany : (I ++ '.' :: F).any isChineseNumeral = false := by
      refine any_chinese_false ?_
      intro c hc
      rcases List.mem_append.mp hc with hcI | hcF
      · exact Or.inl (hI c hcI)
      · rcases List.mem_cons.mp hcF with rfl | hcF'
        · exact Or.inr (Or.inl rfl)
        · exact Or.inl (hF c hcF')
    refine ⟨⟨digitsToNat (I ++ F), F.length⟩, ?_, ?_⟩
    · unfold parseNumber
      rw [hjs, hany]
      rfl
    · rw [JsNum.toRat, specDecimalVal, digitsToNat_append]
      have h10 : ((10 : ℚ) ^ F.length) ≠ 0 := by positivity
      push_cast
      field_simp
  · intro hne hsmall
    have hjs : jsParseFloat I = some ⟨digitsToNat I, 0⟩ := by
      have := jsParseFloat_digit_prefix I [] hI hne (by intro c hc; simp at hc)
      simpa using this
    have hany : I.any isChineseNumeral = false :=
      any_chinese_false (fun c hc => Or.inl (hI c hc))
    refine ⟨⟨digitsToNat I, 0⟩, ?_, ?_, ?_⟩
    · unfold parseNumber
      rw [hjs, hany]
      rfl
    · rw [JsNum.toRat, specDecimalVal]
      norm_num [digitsToNat]
    · refine ⟨digitsToNat I, 0, hsmall, by norm_num, by norm_num, ?_⟩
      have h0 : digitsToNat ([] : List Char) = 0 := rfl
      rw [specDecimalVal, h0]
      norm_num

/-- Witness for the amended C3 at the literals "1.5" (a representable
dotted value, 3 · 2⁻¹) and "7" (an integer below 2^53). -/
theorem parse_decimal_literal_witness :
    (∃ d, parseNumber (['1'] ++ '.' :: ['5']) = some d ∧
      d.toRat = specDecimalVal ['1'] ['5']) ∧
    (∃ d, parseNumber ['7'] = some d ∧ d.toRat = specDecimalVal ['7'] [] ∧
      isDoubleValue (specDecimalVal ['7'] [])) :=
  ⟨(parse_decimal_literal ['1'] ['5'] (by decide) (by decide)).1 (by decide)
    ⟨3, -1, by norm_num, by norm_num, by norm_num, by
      have h1 : digitsToNat ['1'] = 1 := by decide
      have h5 : digitsToNat ['5'] = 5 := by decide
      rw [specDecimalVal, h1, h5]
      norm_num⟩,
   (parse_decimal_literal ['7'] [] (by decide) (by decide)).2 (by decide) (by decide)⟩

theorem containsSub_eq_false_of_badchar {hay n : List Char} (c : Char)
    (hc : c ∈ n) (h : c ∉ hay) : containsSub hay n = false := by
  cases hx : containsSub hay n with
  | false => rfl
  | true => exact absurd (containsSub_mem hx c hc) h

theorem digit_ne_unit {c : Char} (h : isArabicDigit c = true) :
    c ≠ '個' ∧ c ≠ '个' := by
  rcases digit_cases h with rfl | rfl | rfl | rfl | rfl | rfl | rfl | rfl | rfl | rfl <;>
    exact ⟨by decide, by decide⟩

theorem digit_token {c : Char} (h : isArabicDigit c = true) :
    isTokenChar c = true := by
  simp [isTokenChar, h]

/-- Claim C10, counterexample to the exact-value reading: for the pair
d1 = twenty nines, d2 = "1", the text is still one token, but the numeric
value of d1 (10^20 − 1) is not a binary64 value, so the program — whose
parse returns a binary64 (concretely 1e20) — cannot append an entry
holding exactly the value of d1. -/
theorem separator_exact_value_counterexample :
    tokenize (List.replicate 20 '9' ++ '、' :: ['1'])
      = [List.replicate 20 '9' ++ '、' :: ['1']] ∧
    (digitsToNat (List.replicate 20 '9') : ℚ) = (99999999999999999999 : ℚ) ∧
    ¬ isDoubleValue (99999999999999999999 : ℚ) := by
  refine ⟨by decide, ?_, pow20sub1_not_double⟩
  have h : digitsToNat (List.replicate 20 '9') = 99999999999999999999 := by decide
  exact_mod_cast h

/-- Claim C10, amended: for non-empty Arabic digit strings `d1` and `d2`,
the text `d1 ++ "、" ++ d2` is a single token (the list separator is in
the token alphabet), `parseNumber` returns only the value of `d1` —
`parseFloat` stops at the separator, and since no Chinese numeral is
present the fast path returns that prefix value, silently discarding
`d2` — and committing that text appends exactly one entry instead of
two.  The entry's value equals the numeric value of `d1` exactly when
that value is below 2^53, where it is representable in binary64 and the
engine's `parseFloat` is exact; for longer `d1` the program appends the
nearest binary64 instead (still one entry, `d2` still discarded). -/
theorem separator_discards_second_number (d1 d2 : List Char) (es : List JsNum)
    (h1 : d1 ≠ []) (h2 : d2 ≠ [])
    (hd1 : ∀ c ∈ d1, isArabicDigit c = true)
    (hd2 : ∀ c ∈ d2, isArabicDigit c = true)
    (hsmall : digitsToNat d1 < 2 ^ 53) :
    tokenize (d1 ++ '、' :: d2) = [d1 ++ '、' :: d2] ∧
    parseNumber (d1 ++ '、' :: d2) = some ⟨digitsToNat d1, 0⟩ ∧
    isDoubleValue ((digitsToNat d1 : ℚ)) ∧
    processSpeechInput (d1 ++ '、' :: d2) es = es ++ [⟨digitsToNat d1, 0⟩] := by
  set l := d1 ++ '、' :: d2 with hl
  have hall : ∀ c ∈ l, isArabicDigit c = true ∨ c = '、' := by
    intro c hc
    rcases List.mem_append.mp hc with hcI | hcF
    · exact Or.inl (hd1 c hcI)
    · rcases List.mem_cons.mp hcF with rfl | hcF'
      · exact Or.inr rfl
      · exact Or.inl (hd2 c hcF')
  have hlne : l ≠ [] := by
    rw [hl]
    cases d1 with
    | nil => exact absurd rfl h1
    | cons a as => simp
  have htok : tokenize l = [l] := by
    refine tokenize_single hlne ?_
    intro c hc
    rcases hall c hc with hd | rfl
    · exact digit_token hd
    · decide
  have hparse : parseNumber l = some ⟨digitsToNat d1, 0⟩ := by
    have hjs : jsParseFloat l = some ⟨digitsToNat d1, 0⟩ := by
      refine jsParseFloat_digit_prefix d1 ('、' :: d2) hd1 h1 ?_
      intro c hc
      simp only [List.head?_cons, Option.some.injEq] at hc
      subst hc
      exact ⟨by decide, by decide⟩
    have hany : l.any isChineseNumeral = false := by
      refine any_chinese_false ?_
      intro c hc
      rcases hall c hc with hd | rfl
      · exact Or.inl hd
      · exact Or.inr (Or.inr rfl)
    unfold parseNumber
    rw [hjs, hany]
    rfl
  refine ⟨htok, hparse, ⟨digitsToNat d1, 0, hsmall, by norm_num, by norm_num,
    by norm_num⟩, ?_⟩
  have htrim : jsTrim l = l := by
    refine jsTrim_eq_self ?_
    intro c hc
    rcases hall c hc with hd | rfl
    · exact digit_not_ws hd
    · decide
  have hfilter : l.filter (fun c => c ≠ ',') = l := by
    refine List.filter_eq_self.mpr ?_
    intro c hc
    rcases hall c hc with hd | rfl
    · exact digit_not_comma hd
    · decide
  have hlem : l.isEmpty = false := by
    cases hx : l with
    | nil => exact absurd hx hlne
    | cons a as => rfl
  have hdel : commandDelete l = false := by
    unfold commandDelete
    have hx : containsSub l ['刪', '除'] = false := by
      refine containsSub_eq_false_of_badchar '刪' (by simp) ?_
      intro hmem
      rcases hall _ hmem with hd | hd
      · exact absurd hd (by decide)
      · exact absurd hd (by decide)
    have hy : containsSub (l.map Char.toLower) ['d', 'e', 'l', 'e', 't', 'e'] = false := by
      refine containsSub_eq_false_of_badchar 'd' (by simp) ?_
      intro hmem
      obtain ⟨c, hcl, hlc⟩ := List.mem_map.mp hmem
      rcases hall c hcl with hd | rfl
      · rw [digit_toLower hd] at hlc
        subst hlc
        exact absurd hd (by decide)
      · exact absurd hlc (by decide)
    rw [hx, hy]
    rfl
  have hsum : commandSummary l = false := by
    unfold commandSummary
    have hx1 : containsSub l ['總', '共'] = false := by
      refine containsSub_eq_false_of_badchar '總' (by simp) ?_
      intro hmem
      rcases hall _ hmem with hd | hd
      · exact absurd hd (by decide)
      · exact absurd hd (by decide)
    have hx2 : containsSub l ['多', '少'] = false := by
      refine containsSub_eq_false_of_badchar '多' (by simp) ?_
      intro hmem
      rcases hall _ hmem with hd | hd
      · exact absurd hd (by decide)
      · exact absurd hd (by decide)
    have hx3 : containsSub l ['結', '算'] = false := by
      refine containsSub_eq_false_of_badchar '結' (by simp) ?_
      intro hmem
      rcases hall _ hmem with hd | hd
      · exact absurd hd (by decide)
      · exact absurd hd (by decide)
    have hx4 : containsSub l ['買', '單'] = false := by
      refine containsSub_eq_false_of_badchar '買' (by simp) ?_
      intro hmem
      rcases hall _ hmem with hd | hd
      · exact absurd hd (by decide)
      · exact absurd hd (by decide)
    rw [hx1, hx2, hx3, hx4]
    rfl
  have hexp : expandMultipliers l = l := by
    refine expandMultipliers_eq_self ?_
    intro c hc
    rcases hall c hc with hd | rfl
    · exact digit_ne_unit hd
    · exact ⟨by decide, by decide⟩
  simp only [processSpeechInput, htrim, hfilter, hlem, hdel, hsum, hexp, htok,
    Bool.false_eq_true, if_false, List.foldl_cons, List.foldl_nil, hparse]
  rfl

/-- Witness for the amended C10 with the digit strings "1" and "2". -/
theorem separator_discards_second_number_witness :
    tokenize (['1'] ++ '、' :: ['2']) = [['1'] ++ '、' :: ['2']] ∧
    parseNumber (['1'] ++ '、' :: ['2']) = some ⟨digitsToNat ['1'], 0⟩ ∧
    isDoubleValue ((digitsToNat ['1'] : ℚ)) ∧
    processSpeechInput (['1'] ++ '、' :: ['2']) [] = [] ++ [⟨digitsToNat ['1'], 0⟩] :=
  separator_discards_second_number ['1'] ['2'] [] (by decide) (by decide)
    (by decide) (by decide) (by decide)

